import Mathlib

/-!
Shallow embedding of the Go package `compute` (maxim2266/compute), following
the current variant of `compute.go` (the one with `NewPad`, `cmp.Ordered`
keys and key-naming error messages).

Embedding conventions:
* Go maps are embedded as functions `K → Option _`.
* The `any`-typed cells of `Pad.env` become the sum type `GoCell`, with an
  extra constructor `invalid` standing for any dynamic value that is neither
  a `V` nor a `*formula[K, V]` (the `default:` branches of the type switches
  fire exactly on it).
* The unbounded `for` loop of `calculator.eval` is driven by an explicit
  fuel parameter; `EvalStatus.fuelOut` marks fuel exhaustion and corresponds
  to no behaviour of the Go code (which simply keeps looping), so theorems
  either hold for every fuel or assume enough fuel for the run at hand.
* The consumer of the produced `iter.Seq2[K, V]` is a function
  `yield : List (K × V) → K → V → Bool` deciding, from the pairs delivered
  so far and the current pair, whether iteration continues (Go's `yield`).
* Each call of a formula function (`value = c.form.fn(c.args...)`) is
  recorded, together with its argument list, in an instrumentation trace
  carried by the calculator, so that theorems can speak about the number of
  invocations and about the arguments passed.
-/

set_option linter.unusedSectionVars false

namespace Compute

variable {K V : Type} [DecidableEq K]

/-- Error of a resolution pass, mirroring the two `fmt.Errorf` sites of the
source: `missing key "%v"` and `cycle detected on key "%v"`.  The payload is
the key named by the message. -/
inductive CalcErr (K : Type) where
  | missingKey : K → CalcErr K
  | cycle : K → CalcErr K
  deriving DecidableEq

/-- One cell of the pad's map `env map[K]any`: a value `V`, a
`*formula[K, V]` (function plus ordered dependency keys), or any other
dynamic value (hit by the `default:` panic branches). -/
inductive GoCell (K V : Type) where
  | val : V → GoCell K V
  | formula : (List V → V) → List K → GoCell K V
  | invalid : GoCell K V

/-- The `Pad[K, V]` struct: the key map `env` and the pass error `Err`. -/
structure Pad (K V : Type) where
  env : K → Option (GoCell K V)
  err : Option (CalcErr K)

/-- `NewPad`: a pad with an empty map and no error. -/
def Pad.new : Pad K V := ⟨fun _ => none, none⟩

/-- `SetVal` inserts the value at the given key (`p.env[key] = val`). -/
def Pad.setVal (p : Pad K V) (key : K) (v : V) : Pad K V :=
  { p with env := fun j => if j = key then some (.val v) else p.env j }

/-- `SetFunc` inserts a formula cell at the given key
(`p.env[key] = &formula[K, V]{fn: fn, args: args}`). -/
def Pad.setFunc (p : Pad K V) (key : K) (fn : List V → V) (args : List K) : Pad K V :=
  { p with env := fun j => if j = key then some (.formula fn args) else p.env j }

/-- `Delete` removes the given key (`delete(p.env, key)`). -/
def Pad.delete (p : Pad K V) (key : K) : Pad K V :=
  { p with env := fun j => if j = key then none else p.env j }

/-- The `computation[K, V]` struct: one frame of the evaluation stack.  The
`form *formula` field is flattened into its two components `fn` and `deps`
(`form.fn` and `form.args`); `args` is the list of argument values resolved
so far. -/
structure Computation (K V : Type) where
  key : K
  fn : List V → V
  deps : List K
  args : List V

/-- The `calculator[K, V]` struct.  `values` is the per-pass memo map,
`stack` the evaluation stack (kept top-first, while the Go slice keeps the
top at its end), `active` the cycle-detector set `map[K]struct{}`.  `trace`
is instrumentation only: the formula keys whose function was invoked, with
the argument list of each invocation, in invocation order. -/
structure Calculator (K V : Type) where
  values : K → Option V
  stack : List (Computation K V)
  active : K → Bool
  trace : List (K × List V)

/-- A freshly constructed calculator, as built at the start of `CalcSeq`:
empty memo, empty stack, empty active set. -/
def Calculator.init : Calculator K V := ⟨fun _ => none, [], fun _ => false, []⟩

/-- Result of the dependency walk
`for _, k := range c.form.args[len(c.args):] {...}` over the remaining
dependencies of the top frame.  Every constructor carries the argument list
accumulated so far (Go mutates `c.args` in place). -/
inductive WalkRes (K V : Type) where
  | failed : CalcErr K → List V → WalkRes K V
  | invalidCell : List V → WalkRes K V
  | pushed : K → (List V → V) → List K → List V → WalkRes K V
  | complete : List V → WalkRes K V

/-- The dependency walk of `calculator.eval`: for each remaining dependency
key, a missing cell fails with `missing key`, a value cell contributes its
value, a formula cell contributes its memoised value if present and is
otherwise scheduled (`calc.push(k, x)` inlined: a key already in the active
set fails with `cycle detected`), and any other cell panics. -/
def depWalk (env : K → Option (GoCell K V)) (values : K → Option V)
    (active : K → Bool) (args : List V) : List K → WalkRes K V
  | [] => .complete args
  | k :: rest =>
    match env k with
    | none => .failed (.missingKey k) args
    | some (.val v) => depWalk env values active (args ++ [v]) rest
    | some (.formula fn deps) =>
      match values k with
      | some v => depWalk env values active (args ++ [v]) rest
      | none =>
        if active k then .failed (.cycle k) args
        else .pushed k fn deps args
    | some .invalid => .invalidCell args

/-- What one run of the `eval` loop produced: a value, a pass error, a
panic (`invalid cell type`, or indexing an empty stack), or fuel
exhaustion (an artifact of the embedding). -/
inductive EvalStatus (K V : Type) where
  | ok : V → EvalStatus K V
  | failed : CalcErr K → EvalStatus K V
  | panicked : EvalStatus K V
  | fuelOut : EvalStatus K V

/-- Result of `calculator.eval`: the status together with the calculator
state left behind (the Go method mutates its receiver). -/
structure EvalResult (K V : Type) where
  status : EvalStatus K V
  cstate : Calculator K V

/-- The main loop of `calculator.eval` (`loop: for { ... }`), one fuel unit
per iteration.  The top frame's remaining dependencies are walked; on
`pushed` a new frame is stacked (the suspended frame keeping its partially
extended argument list) and the loop restarts; on `complete` the formula
function is invoked on the collected arguments, the result is memoised
(`calc.values[c.key] = value`), the invocation is recorded in the trace, and
the frame is popped (`calc.pop()`), returning the value when the stack
empties. -/
def evalLoop (env : K → Option (GoCell K V)) : Nat → Calculator K V → EvalResult K V
  | 0, cal => ⟨.fuelOut, cal⟩
  | fuel + 1, cal =>
    match cal.stack with
    | [] => ⟨.panicked, cal⟩
    | c :: rest =>
      match depWalk env cal.values cal.active c.args (c.deps.drop c.args.length) with
      | .failed e args => ⟨.failed e, { cal with stack := { c with args := args } :: rest }⟩
      | .invalidCell args => ⟨.panicked, { cal with stack := { c with args := args } :: rest }⟩
      | .pushed k fn deps args =>
        evalLoop env fuel
          { cal with
            stack := ⟨k, fn, deps, []⟩ :: { c with args := args } :: rest,
            active := fun j => if j = k then true else cal.active j }
      | .complete args =>
        let v := c.fn args
        let cal' : Calculator K V :=
          { values := fun j => if j = c.key then some v else cal.values j,
            stack := rest,
            active := fun j => if j = c.key then false else cal.active j,
            trace := cal.trace ++ [(c.key, args)] }
        if rest.isEmpty then ⟨.ok v, cal'⟩ else evalLoop env fuel cal'

/-- `calculator.eval(env, key, form)`: push the root frame (failing with
`cycle detected` if the key is already active, as `calc.push` does) and run
the loop. -/
def Calculator.eval (cal : Calculator K V) (env : K → Option (GoCell K V)) (fuel : Nat)
    (key : K) (fn : List V → V) (deps : List K) : EvalResult K V :=
  if cal.active key then ⟨.failed (.cycle key), cal⟩
  else
    evalLoop env fuel
      { cal with
        stack := ⟨key, fn, deps, []⟩ :: cal.stack,
        active := fun j => if j = key then true else cal.active j }

/-- How a resolution pass ended: requested keys exhausted, consumer stopped
(`yield` returned `false`), pass error set, panic, or fuel exhaustion (an
artifact of the embedding). -/
inductive PassOut where
  | completed
  | stopped
  | errored
  | panicked
  | fuelOut
  deriving DecidableEq

/-- Result of one resolution pass: the pad as left behind (`env` and `Err`),
the pairs delivered to `yield` in order, the final calculator state (in the
source it becomes garbage when the pass ends; it is kept here for the
instrumentation trace), and how the pass ended. -/
structure PassResult (K V : Type) where
  pad : Pad K V
  out : List (K × V)
  cstate : Calculator K V
  outcome : PassOut

/-- The `for key := range keys` loop of `CalcSeq`: a missing cell sets the
pass error and returns; a value cell is yielded directly; a formula cell is
served from the memo when possible and otherwise evaluated via
`calc.eval`, whose error (if any) becomes the pass error; any other cell
panics. -/
def calcSeqLoop (env : K → Option (GoCell K V)) (yield : List (K × V) → K → V → Bool)
    (fuel : Nat) : List K → Calculator K V → List (K × V) → PassResult K V
  | [], cal, out => ⟨⟨env, none⟩, out, cal, .completed⟩
  | key :: keys, cal, out =>
    match env key with
    | none => ⟨⟨env, some (.missingKey key)⟩, out, cal, .errored⟩
    | some (.val v) =>
      if yield out key v then
        calcSeqLoop env yield fuel keys cal (out ++ [(key, v)])
      else
        ⟨⟨env, none⟩, out ++ [(key, v)], cal, .stopped⟩
    | some (.formula fn deps) =>
      match cal.values key with
      | some v =>
        if yield out key v then
          calcSeqLoop env yield fuel keys cal (out ++ [(key, v)])
        else
          ⟨⟨env, none⟩, out ++ [(key, v)], cal, .stopped⟩
      | none =>
        match cal.eval env fuel key fn deps with
        | ⟨.ok v, cal'⟩ =>
          if yield out key v then
            calcSeqLoop env yield fuel keys cal' (out ++ [(key, v)])
          else
            ⟨⟨env, none⟩, out ++ [(key, v)], cal', .stopped⟩
        | ⟨.failed e, cal'⟩ => ⟨⟨env, some e⟩, out, cal', .errored⟩
        | ⟨.panicked, cal'⟩ => ⟨⟨env, none⟩, out, cal', .panicked⟩
        | ⟨.fuelOut, cal'⟩ => ⟨⟨env, none⟩, out, cal', .fuelOut⟩
    | some .invalid => ⟨⟨env, none⟩, out, cal, .panicked⟩

/-- `Pad.CalcSeq(keys)`, run against a given consumer: the previous `Err` is
discarded (`p.Err = nil`), a fresh calculator is built, and the loop runs
over the requested keys. -/
def Pad.calcSeq (p : Pad K V) (fuel : Nat) (keys : List K)
    (yield : List (K × V) → K → V → Bool) : PassResult K V :=
  calcSeqLoop p.env yield fuel keys Calculator.init []

/-- `slices.Values(keys)`: the sequence enumerating a slice in order, which
the embedding represents by the list itself. -/
def slicesValues (keys : List K) : List K := keys

/-- `Pad.Calc(keys...)`, the fixed-list adapter:
`p.CalcSeq(slices.Values(keys))`. -/
def Pad.calcFixed (p : Pad K V) (fuel : Nat) (keys : List K)
    (yield : List (K × V) → K → V → Bool) : PassResult K V :=
  p.calcSeq fuel (slicesValues keys) yield

/-- Pads whose map was populated only through the public operations: built
from `NewPad` by `SetVal`, `SetFunc` and `Delete` (the `err` field may have
been set by intervening passes, which never touch the map). -/
inductive Built : Pad K V → Prop where
  | new : Built Pad.new
  | setVal (p : Pad K V) (key : K) (v : V) : Built p → Built (p.setVal key v)
  | setFunc (p : Pad K V) (key : K) (fn : List V → V) (args : List K) :
      Built p → Built (p.setFunc key fn args)
  | del (p : Pad K V) (key : K) : Built p → Built (p.delete key)
  | setErr (p : Pad K V) (e : Option (CalcErr K)) : Built p → Built ⟨p.env, e⟩

/-- The value an occurrence of dependency key `d` contributes to an argument
list, given a memo and the environment: a value cell contributes its stored
value, a formula cell its memoised result (if any). -/
def depVal (values : K → Option V) (env : K → Option (GoCell K V)) (d : K) : Option V :=
  match env d with
  | some (.val v) => some v
  | some (.formula _ _) => values d
  | _ => none

/-! Proof infrastructure. -/

/-- Pointwise growth of a memo map: every entry of `f` survives in `g`. -/
def MemoLe (f g : K → Option V) : Prop := ∀ d v, f d = some v → g d = some v

theorem mapSome_stable {f g : K → Option V} :
    ∀ (ds : List K) (as' : List V), as'.map some = ds.map f → MemoLe f g →
    as'.map some = ds.map g := by
  intro ds
  induction ds with
  | nil =>
    intro as' h _
    simpa using h
  | cons d ds ih =>
    intro as' h hmono
    cases as' with
    | nil => simp at h
    | cons a as'' =>
      simp only [List.map_cons, List.cons.injEq] at h ⊢
      exact ⟨(hmono d a h.1.symm).symm, ih as'' h.2 hmono⟩

theorem depVal_update {values : K → Option V} {env : K → Option (GoCell K V)} {key : K} {v : V}
    (hnone : values key = none) :
    MemoLe (depVal values env) (depVal (fun j => if j = key then some v else values j) env) := by
  intro d w h
  unfold depVal at h ⊢
  cases henv : env d with
  | none => rw [henv] at h; exact absurd h (by simp)
  | some cell =>
    rw [henv] at h
    cases cell with
    | val x => simpa [henv] using h
    | formula fn deps =>
      simp only [henv]
      by_cases hd : d = key
      · rw [hd] at h; rw [hnone] at h; exact absurd h (by simp)
      · simp [hd]; exact h
    | invalid => exact absurd h (by simp)

/-- Soundness facts about one result of the dependency walk, relative to the
full dependency list `full` of the walked frame. -/
def WalkOk (env : K → Option (GoCell K V)) (values : K → Option V) (active : K → Bool)
    (full : List K) : WalkRes K V → Prop
  | .complete args' => args'.map some = full.map (depVal values env)
  | .pushed k fn deps args' =>
      values k = none ∧ active k = false ∧ env k = some (.formula fn deps) ∧
      args'.map some = (full.take args'.length).map (depVal values env)
  | .failed e args' =>
      ((∃ d, e = .missingKey d ∧ env d = none) ∨
       (∃ d, e = .cycle d ∧ active d = true)) ∧
      args'.map some = (full.take args'.length).map (depVal values env)
  | .invalidCell args' =>
      (∃ d, env d = some .invalid) ∧
      args'.map some = (full.take args'.length).map (depVal values env)

theorem depWalk_ok (env : K → Option (GoCell K V)) (values : K → Option V) (active : K → Bool) :
    ∀ (rem : List K) (args : List V) (pref : List K), pref.length = args.length →
    args.map some = pref.map (depVal values env) →
    WalkOk env values active (pref ++ rem) (depWalk env values active args rem) := by
  intro rem
  induction rem with
  | nil =>
    intro args pref _ h
    simpa [depWalk, WalkOk] using h
  | cons k rest ih =>
    intro args pref hlen h
    have htake : (pref ++ k :: rest).take args.length = pref := by
      rw [← hlen]; exact List.take_left pref _
    simp only [depWalk]
    cases henv : env k with
    | none =>
      refine ⟨Or.inl ⟨k, rfl, henv⟩, ?_⟩
      rw [htake]; exact h
    | some cell =>
      cases cell with
      | val v =>
        have hrec := ih (args ++ [v]) (pref ++ [k])
          (by simp [hlen]) (by simp [h, depVal, henv])
        simpa [List.append_assoc] using hrec
      | formula fn deps =>
        cases hv : values k with
        | some v =>
          have hrec := ih (args ++ [v]) (pref ++ [k])
            (by simp [hlen]) (by simp [h, depVal, henv, hv])
          simpa [List.append_assoc] using hrec
        | none =>
          cases hact : active k with
          | true =>
            simp only [hact, if_true]
            refine ⟨Or.inr ⟨k, rfl, hact⟩, ?_⟩
            rw [htake]; exact h
          | false =>
            simp only [hact, if_false]
            refine ⟨hv, hact, henv, ?_⟩
            rw [htake]; exact h
      | invalid =>
        refine ⟨⟨k, henv⟩, ?_⟩
        rw [htake]; exact h

/-- The state invariant of the calculator, relative to a fixed environment:
the active set mirrors the stack, stacked keys are distinct and not yet
memoised, the instrumentation trace mirrors the memo, every frame was built
from the formula cell of its key, the partially collected arguments of every
frame match the corresponding dependency positions, and every recorded
invocation received one argument per dependency, positionally. -/
structure Inv (env : K → Option (GoCell K V)) (cal : Calculator K V) : Prop where
  activeIff : ∀ k, cal.active k = true ↔ k ∈ cal.stack.map Computation.key
  stackNodup : (cal.stack.map Computation.key).Nodup
  stackFresh : ∀ c ∈ cal.stack, cal.values c.key = none
  traceIff : ∀ k, k ∈ cal.trace.map Prod.fst ↔ ∃ v, cal.values k = some v
  traceNodup : (cal.trace.map Prod.fst).Nodup
  frameWf : ∀ c ∈ cal.stack, env c.key = some (GoCell.formula c.fn c.deps)
  frameArgs : ∀ c ∈ cal.stack,
    c.args.map some = (c.deps.take c.args.length).map (depVal cal.values env)
  traceArgs : ∀ q ∈ cal.trace, ∀ fn deps, env q.1 = some (GoCell.formula fn deps) →
    q.2.map some = deps.map (depVal cal.values env)

theorem inv_init (env : K → Option (GoCell K V)) : Inv env (Calculator.init : Calculator K V) := by
  constructor <;> simp [Calculator.init]

theorem inv_set_top_args {env : K → Option (GoCell K V)} {cal : Calculator K V}
    {c : Computation K V} {rest : List (Computation K V)} {args' : List V}
    (h : Inv env cal) (hs : cal.stack = c :: rest)
    (hargs' : args'.map some = (c.deps.take args'.length).map (depVal cal.values env)) :
    Inv env { cal with stack := { c with args := args' } :: rest } := by
  have hcmem : c ∈ cal.stack := by rw [hs]; exact List.mem_cons_self _ _
  have hrmem : ∀ c' ∈ rest, c' ∈ cal.stack := fun c' h' => by
    rw [hs]; exact List.mem_cons_of_mem _ h'
  constructor
  · intro k
    have := h.activeIff k
    rw [hs] at this
    simpa using this
  · have := h.stackNodup
    rw [hs] at this
    simpa using this
  · intro c' hc'
    rcases List.mem_cons.1 hc' with hc' | hc'
    · subst hc'; exact h.stackFresh c hcmem
    · exact h.stackFresh c' (hrmem c' hc')
  · exact h.traceIff
  · exact h.traceNodup
  · intro c' hc'
    rcases List.mem_cons.1 hc' with hc' | hc'
    · subst hc'; exact h.frameWf c hcmem
    · exact h.frameWf c' (hrmem c' hc')
  · intro c' hc'
    rcases List.mem_cons.1 hc' with hc' | hc'
    · subst hc'; exact hargs'
    · exact h.frameArgs c' (hrmem c' hc')
  · exact h.traceArgs

theorem inv_push {env : K → Option (GoCell K V)} {cal : Calculator K V}
    {c : Computation K V} {rest : List (Computation K V)} {args' : List V}
    {k : K} {fn : List V → V} {deps : List K}
    (h : Inv env cal) (hs : cal.stack = c :: rest)
    (hargs' : args'.map some = (c.deps.take args'.length).map (depVal cal.values env))
    (hvk : cal.values k = none) (hak : cal.active k = false)
    (henvk : env k = some (GoCell.formula fn deps)) :
    Inv env { cal with
      stack := ⟨k, fn, deps, []⟩ :: { c with args := args' } :: rest,
      active := fun j => if j = k then true else cal.active j } := by
  have hcmem : c ∈ cal.stack := by rw [hs]; exact List.mem_cons_self _ _
  have hrmem : ∀ c' ∈ rest, c' ∈ cal.stack := fun c' h' => by
    rw [hs]; exact List.mem_cons_of_mem _ h'
  have hknot : k ∉ cal.stack.map Computation.key := by
    intro hmem
    have := (h.activeIff k).2 hmem
    rw [hak] at this
    exact Bool.false_ne_true this
  constructor
  · intro j
    by_cases hj : j = k
    · subst hj; simp
    · have := h.activeIff j
      rw [hs] at this
      simp only [List.map_cons, List.mem_cons] at this ⊢
      simp [hj, this]
  · have hn := h.stackNodup
    rw [hs] at hn
    rw [hs] at hknot
    simp only [List.map_cons, List.nodup_cons, List.mem_cons] at hn hknot ⊢
    exact ⟨fun hor => hknot (by simpa using hor), by simpa using hn⟩
  · intro c' hc'
    rcases List.mem_cons.1 hc' with hc' | hc'
    · subst hc'; exact hvk
    · rcases List.mem_cons.1 hc' with hc'' | hc''
      · subst hc''; exact h.stackFresh c hcmem
      · exact h.stackFresh c' (hrmem c' hc'')
  · exact h.traceIff
  · exact h.traceNodup
  · intro c' hc'
    rcases List.mem_cons.1 hc' with hc' | hc'
    · subst hc'; exact henvk
    · rcases List.mem_cons.1 hc' with hc'' | hc''
      · subst hc''; exact h.frameWf c hcmem
      · exact h.frameWf c' (hrmem c' hc'')
  · intro c' hc'
    rcases List.mem_cons.1 hc' with hc' | hc'
    · subst hc'; simp
    · rcases List.mem_cons.1 hc' with hc'' | hc''
      · subst hc''; exact hargs'
      · exact h.frameArgs c' (hrmem c' hc'')
  · exact h.traceArgs

theorem inv_complete {env : K → Option (GoCell K V)} {cal : Calculator K V}
    {c : Computation K V} {rest : List (Computation K V)} {args' : List V} {v : V}
    (h : Inv env cal) (hs : cal.stack = c :: rest)
    (hfull : args'.map some = c.deps.map (depVal cal.values env)) :
    Inv env { values := fun j => if j = c.key then some v else cal.values j,
              stack := rest,
              active := fun j => if j = c.key then false else cal.active j,
              trace := cal.trace ++ [(c.key, args')] } := by
  have hcmem : c ∈ cal.stack := by rw [hs]; exact List.mem_cons_self _ _
  have hrmem : ∀ c' ∈ rest, c' ∈ cal.stack := fun c' h' => by
    rw [hs]; exact List.mem_cons_of_mem _ h'
  have hfresh : cal.values c.key = none := h.stackFresh c hcmem
  have hml : MemoLe (depVal cal.values env)
      (depVal (fun j => if j = c.key then some v else cal.values j) env) :=
    depVal_update hfresh
  have hn := h.stackNodup
  rw [hs] at hn
  simp only [List.map_cons, List.nodup_cons] at hn
  have hkeynot : c.key ∉ rest.map Computation.key := hn.1
  have hktrace : c.key ∉ cal.trace.map Prod.fst := by
    intro hmem
    rcases (h.traceIff c.key).1 hmem with ⟨w, hw⟩
    rw [hfresh] at hw
    exact Option.noConfusion hw
  constructor
  · intro j
    by_cases hj : j = c.key
    · subst hj
      simp only [if_pos rfl]
      constructor
      · intro hf; exact absurd hf Bool.false_ne_true
      · intro hmem; exact absurd hmem hkeynot
    · have := h.activeIff j
      rw [hs] at this
      simp only [List.map_cons, List.mem_cons] at this
      simpa [hj] using this
  · exact hn.2
  · intro c' hc'
    have hne : c'.key ≠ c.key := by
      intro heq
      exact hkeynot (heq ▸ List.mem_map_of_mem Computation.key hc')
    simp only [if_neg hne]
    exact h.stackFresh c' (hrmem c' hc')
  · intro j
    by_cases hj : j = c.key
    · subst hj
      simp
    · simp only [List.map_append, List.mem_append, List.map_cons, List.map_nil,
        List.mem_singleton, hj, or_false, if_neg hj]
      exact h.traceIff j
  · simp only [List.map_append, List.map_cons, List.map_nil]
    rw [List.nodup_append]
    exact ⟨h.traceNodup, List.nodup_singleton _, by
      intro x hx hx'
      simp only [List.mem_singleton] at hx'
      subst hx'
      exact hktrace hx⟩
  · intro c' hc'
    exact h.frameWf c' (hrmem c' hc')
  · intro c' hc'
    exact mapSome_stable _ _ (h.frameArgs c' (hrmem c' hc')) hml
  · intro q hq
    rcases List.mem_append.1 hq with hq | hq
    · intro fn deps henv
      exact mapSome_stable _ _ (h.traceArgs q hq fn deps henv) hml
    · simp only [List.mem_singleton] at hq
      subst hq
      intro fn deps henv
      have hwf := h.frameWf c hcmem
      rw [hwf] at henv
      have hinj := Option.some.inj henv
      have hfn : c.fn = fn := (GoCell.formula.inj hinj).1
      have hdeps : c.deps = deps := (GoCell.formula.inj hinj).2
      subst hdeps
      exact mapSome_stable _ _ hfull hml

theorem evalLoop_inv (env : K → Option (GoCell K V)) :
    ∀ (fuel : Nat) (cal : Calculator K V), Inv env cal →
    Inv env (evalLoop env fuel cal).cstate := by
  intro fuel
  induction fuel with
  | zero => intro cal h; exact h
  | succ n ih =>
    intro cal h
    cases hs : cal.stack with
    | nil =>
      simp only [evalLoop, hs]
      exact h
    | cons c rest =>
      have hcm : c ∈ cal.stack := by rw [hs]; exact List.mem_cons_self _ _
      have hpref : (c.deps.take c.args.length).length = c.args.length := by
        have := congrArg List.length (h.frameArgs c hcm)
        simp only [List.length_map, List.length_take] at this
        simp [List.length_take]
        omega
      have hwalk := depWalk_ok env cal.values cal.active (c.deps.drop c.args.length) c.args
        (c.deps.take c.args.length) hpref (h.frameArgs c hcm)
      rw [List.take_append_drop] at hwalk
      simp only [evalLoop, hs]
      cases hw : depWalk env cal.values cal.active c.args (c.deps.drop c.args.length) with
      | failed e args' =>
        rw [hw] at hwalk
        exact inv_set_top_args h hs hwalk.2
      | invalidCell args' =>
        rw [hw] at hwalk
        exact inv_set_top_args h hs hwalk.2
      | pushed k fn deps args' =>
        rw [hw] at hwalk
        obtain ⟨hvk, hak, henvk, hargs'⟩ := hwalk
        exact ih _ (inv_push h hs hargs' hvk hak henvk)
      | complete args' =>
        rw [hw] at hwalk
        cases hrest : rest.isEmpty with
        | true => exact inv_complete h hs hwalk
        | false => exact ih _ (inv_complete h hs hwalk)

theorem evalLoop_ok_stack (env : K → Option (GoCell K V)) :
    ∀ (fuel : Nat) (cal : Calculator K V) (v : V),
    (evalLoop env fuel cal).status = .ok v → (evalLoop env fuel cal).cstate.stack = [] := by
  intro fuel
  induction fuel with
  | zero =>
    intro cal v hok
    exact absurd hok (by simp [evalLoop])
  | succ n ih =>
    intro cal v hok
    cases hs : cal.stack with
    | nil =>
      exact absurd hok (by simp [evalLoop, hs])
    | cons c rest =>
      simp only [evalLoop, hs] at hok ⊢
      cases hw : depWalk env cal.values cal.active c.args (c.deps.drop c.args.length) with
      | failed e args' =>
        rw [hw] at hok
        simp at hok
      | invalidCell args' =>
        rw [hw] at hok
        simp at hok
      | pushed k fn deps args' =>
        rw [hw] at hok
        exact ih _ v hok
      | complete args' =>
        rw [hw] at hok
        cases rest with
        | nil => rfl
        | cons c2 rest2 =>
          simp only [List.isEmpty_cons, Bool.false_eq_true, if_false] at hok
          exact ih _ v hok

theorem eval_inv {env : K → Option (GoCell K V)} {cal : Calculator K V}
    (fuel : Nat) {key : K} {fn : List V → V} {deps : List K}
    (h : Inv env cal) (hs : cal.stack = []) (hv : cal.values key = none)
    (he : env key = some (GoCell.formula fn deps)) :
    Inv env (cal.eval env fuel key fn deps).cstate := by
  have hak : cal.active key = false := by
    have := h.activeIff key
    rw [hs] at this
    simpa using this
  unfold Calculator.eval
  rw [if_neg (by simp [hak])]
  apply evalLoop_inv
  rw [hs]
  constructor
  · intro j
    by_cases hj : j = key
    · subst hj; simp
    · have := h.activeIff j
      rw [hs] at this
      simp only [List.map_nil, List.mem_nil_iff, iff_false] at this
      simp [hj, this]
  · simp
  · intro c' hc'
    simp only [List.mem_singleton] at hc'
    subst hc'
    exact hv
  · exact h.traceIff
  · exact h.traceNodup
  · intro c' hc'
    simp only [List.mem_singleton] at hc'
    subst hc'
    exact he
  · intro c' hc'
    simp only [List.mem_singleton] at hc'
    subst hc'
    simp
  · exact h.traceArgs

theorem eval_ok_stack {env : K → Option (GoCell K V)} (cal : Calculator K V)
    (fuel : Nat) (key : K) (fn : List V → V) (deps : List K) (v : V)
    (hok : (cal.eval env fuel key fn deps).status = .ok v) :
    (cal.eval env fuel key fn deps).cstate.stack = [] := by
  unfold Calculator.eval at hok ⊢
  by_cases hak : cal.active key = true
  · rw [if_pos hak] at hok
    exact absurd hok (by simp)
  · rw [if_neg hak] at hok ⊢
    exact evalLoop_ok_stack env fuel _ v hok

theorem calcSeqLoop_inv (env : K → Option (GoCell K V)) (y : List (K × V) → K → V → Bool)
    (fuel : Nat) : ∀ (keys : List K) (cal : Calculator K V) (out : List (K × V)),
    Inv env cal → cal.stack = [] →
    Inv env (calcSeqLoop env y fuel keys cal out).cstate := by
  intro keys
  induction keys with
  | nil => intro cal out h _; exact h
  | cons k ks ih =>
    intro cal out h hs
    cases henv : env k with
    | none =>
      simp only [calcSeqLoop, henv]
      exact h
    | some cell =>
      cases cell with
      | val v =>
        simp only [calcSeqLoop, henv]
        cases hy : y out k v with
        | false => exact h
        | true => exact ih cal (out ++ [(k, v)]) h hs
      | formula fn deps =>
        cases hv : cal.values k with
        | some v =>
          simp only [calcSeqLoop, henv, hv]
          cases hy : y out k v with
          | false => exact h
          | true => exact ih cal (out ++ [(k, v)]) h hs
        | none =>
          cases hev : cal.eval env fuel k fn deps with
          | mk st cal' =>
            have hinv' : Inv env cal' := by
              have h2 := eval_inv fuel h hs hv henv
              rw [hev] at h2
              exact h2
            cases st with
            | ok v =>
              have hstack' : cal'.stack = [] := by
                have h3 := eval_ok_stack cal fuel k fn deps v (by rw [hev])
                rw [hev] at h3
                exact h3
              simp only [calcSeqLoop, henv, hv, hev]
              cases hy : y out k v with
              | false => exact hinv'
              | true => exact ih cal' (out ++ [(k, v)]) hinv' hstack'
            | failed e =>
              simp only [calcSeqLoop, henv, hv, hev]
              exact hinv'
            | panicked =>
              simp only [calcSeqLoop, henv, hv, hev]
              exact hinv'
            | fuelOut =>
              simp only [calcSeqLoop, henv, hv, hev]
              exact hinv'
      | invalid =>
        simp only [calcSeqLoop, henv]
        exact h

theorem calcSeq_inv (p : Pad K V) (fuel : Nat) (keys : List K)
    (y : List (K × V) → K → V → Bool) :
    Inv p.env (p.calcSeq fuel keys y).cstate :=
  calcSeqLoop_inv p.env y fuel keys Calculator.init [] (inv_init p.env) rfl

theorem calcSeqLoop_env (env : K → Option (GoCell K V)) (y : List (K × V) → K → V → Bool)
    (fuel : Nat) : ∀ (keys : List K) (cal : Calculator K V) (out : List (K × V)),
    (calcSeqLoop env y fuel keys cal out).pad.env = env := by
  intro keys
  induction keys with
  | nil => intro cal out; rfl
  | cons k ks ih =>
    intro cal out
    cases henv : env k with
    | none => simp only [calcSeqLoop, henv]
    | some cell =>
      cases cell with
      | val v =>
        simp only [calcSeqLoop, henv]
        cases hy : y out k v with
        | false => rfl
        | true => exact ih cal (out ++ [(k, v)])
      | formula fn deps =>
        cases hv : cal.values k with
        | some v =>
          simp only [calcSeqLoop, henv, hv]
          cases hy : y out k v with
          | false => rfl
          | true => exact ih cal (out ++ [(k, v)])
        | none =>
          cases hev : cal.eval env fuel k fn deps with
          | mk st cal' =>
            cases st with
            | ok v =>
              simp only [calcSeqLoop, henv, hv, hev]
              cases hy : y out k v with
              | false => rfl
              | true => exact ih cal' (out ++ [(k, v)])
            | failed e => simp only [calcSeqLoop, henv, hv, hev]
            | panicked => simp only [calcSeqLoop, henv, hv, hev]
            | fuelOut => simp only [calcSeqLoop, henv, hv, hev]
      | invalid => simp only [calcSeqLoop, henv]

theorem calcSeqLoop_append (env : K → Option (GoCell K V)) (y : List (K × V) → K → V → Bool)
    (fuel : Nat) : ∀ (ks1 ks2 : List K) (cal : Calculator K V) (out : List (K × V)),
    calcSeqLoop env y fuel (ks1 ++ ks2) cal out =
      (if (calcSeqLoop env y fuel ks1 cal out).outcome = PassOut.completed
       then calcSeqLoop env y fuel ks2 (calcSeqLoop env y fuel ks1 cal out).cstate
              (calcSeqLoop env y fuel ks1 cal out).out
       else calcSeqLoop env y fuel ks1 cal out) := by
  intro ks1
  induction ks1 with
  | nil =>
    intro ks2 cal out
    simp [calcSeqLoop]
  | cons k ks ih =>
    intro ks2 cal out
    cases henv : env k with
    | none => simp only [List.cons_append, calcSeqLoop, henv]; simp
    | some cell =>
      cases cell with
      | val v =>
        simp only [List.cons_append, calcSeqLoop, henv]
        cases hy : y out k v with
        | false => simp
        | true => simp [ih]
      | formula fn deps =>
        cases hv : cal.values k with
        | some v =>
          simp only [List.cons_append, calcSeqLoop, henv, hv]
          cases hy : y out k v with
          | false => simp
          | true => simp [ih]
        | none =>
          cases hev : cal.eval env fuel k fn deps with
          | mk st cal' =>
            cases st with
            | ok v =>
              simp only [List.cons_append, calcSeqLoop, henv, hv, hev]
              cases hy : y out k v with
              | false => simp
              | true => simp [ih]
            | failed e => simp only [List.cons_append, calcSeqLoop, henv, hv, hev]; simp
            | panicked => simp only [List.cons_append, calcSeqLoop, henv, hv, hev]; simp
            | fuelOut => simp only [List.cons_append, calcSeqLoop, henv, hv, hev]; simp
      | invalid => simp only [List.cons_append, calcSeqLoop, henv]; simp

theorem calcSeqLoop_err_errored (env : K → Option (GoCell K V)) (y : List (K × V) → K → V → Bool)
    (fuel : Nat) : ∀ (keys : List K) (cal : Calculator K V) (out : List (K × V)) (e : CalcErr K),
    (calcSeqLoop env y fuel keys cal out).pad.err = some e →
    (calcSeqLoop env y fuel keys cal out).outcome = PassOut.errored := by
  intro keys
  induction keys with
  | nil =>
    intro cal out e h
    exact absurd h (by simp [calcSeqLoop])
  | cons k ks ih =>
    intro cal out e h
    cases henv : env k with
    | none => simp only [calcSeqLoop, henv]
    | some cell =>
      cases cell with
      | val v =>
        simp only [calcSeqLoop, henv] at h ⊢
        cases hy : y out k v with
        | false => rw [hy] at h; simp at h
        | true => rw [hy] at h; exact ih cal (out ++ [(k, v)]) e h
      | formula fn deps =>
        cases hv : cal.values k with
        | some v =>
          simp only [calcSeqLoop, henv, hv] at h ⊢
          cases hy : y out k v with
          | false => rw [hy] at h; simp at h
          | true => rw [hy] at h; exact ih cal (out ++ [(k, v)]) e h
        | none =>
          cases hev : cal.eval env fuel k fn deps with
          | mk st cal' =>
            cases st with
            | ok v =>
              simp only [calcSeqLoop, henv, hv, hev] at h ⊢
              cases hy : y out k v with
              | false => rw [hy] at h; simp at h
              | true => rw [hy] at h; exact ih cal' (out ++ [(k, v)]) e h
            | failed e2 => simp only [calcSeqLoop, henv, hv, hev]
            | panicked =>
              simp only [calcSeqLoop, henv, hv, hev] at h
              simp at h
            | fuelOut =>
              simp only [calcSeqLoop, henv, hv, hev] at h
              simp at h
      | invalid =>
        simp only [calcSeqLoop, henv] at h
        simp at h

theorem calcSeqLoop_completed_out (env : K → Option (GoCell K V))
    (y : List (K × V) → K → V → Bool) (fuel : Nat) :
    ∀ (keys : List K) (cal : Calculator K V) (out : List (K × V)),
    (calcSeqLoop env y fuel keys cal out).outcome = PassOut.completed →
    (calcSeqLoop env y fuel keys cal out).out.map Prod.fst = out.map Prod.fst ++ keys := by
  intro keys
  induction keys with
  | nil =>
    intro cal out _
    simp [calcSeqLoop]
  | cons k ks ih =>
    intro cal out h
    cases henv : env k with
    | none =>
      simp only [calcSeqLoop, henv] at h
      simp at h
    | some cell =>
      cases cell with
      | val v =>
        simp only [calcSeqLoop, henv] at h ⊢
        cases hy : y out k v with
        | false => rw [hy] at h; simp at h
        | true =>
          rw [hy] at h
          have h2 := ih cal (out ++ [(k, v)]) h
          simp [h2]
      | formula fn deps =>
        cases hv : cal.values k with
        | some v =>
          simp only [calcSeqLoop, henv, hv] at h ⊢
          cases hy : y out k v with
          | false => rw [hy] at h; simp at h
          | true =>
            rw [hy] at h
            have h2 := ih cal (out ++ [(k, v)]) h
            simp [h2]
        | none =>
          cases hev : cal.eval env fuel k fn deps with
          | mk st cal' =>
            cases st with
            | ok v =>
              simp only [calcSeqLoop, henv, hv, hev] at h ⊢
              cases hy : y out k v with
              | false => rw [hy] at h; simp at h
              | true =>
                rw [hy] at h
                have h2 := ih cal' (out ++ [(k, v)]) h
                simp [h2]
            | failed e =>
              simp only [calcSeqLoop, henv, hv, hev] at h
              simp at h
            | panicked =>
              simp only [calcSeqLoop, henv, hv, hev] at h
              simp at h
            | fuelOut =>
              simp only [calcSeqLoop, henv, hv, hev] at h
              simp at h
      | invalid =>
        simp only [calcSeqLoop, henv] at h
        simp at h

/-- Environments that never hold a dynamically ill-typed cell. -/
def NoInvalid (env : K → Option (GoCell K V)) : Prop :=
  ∀ k, env k ≠ some GoCell.invalid

theorem built_noInvalid {p : Pad K V} (h : Built p) : NoInvalid p.env := by
  induction h with
  | new => intro k; simp [Pad.new]
  | setVal p key v _ ih =>
    intro k
    by_cases hk : k = key
    · simp [Pad.setVal, hk]
    · simp only [Pad.setVal, if_neg hk]
      exact ih k
  | setFunc p key fn args _ ih =>
    intro k
    by_cases hk : k = key
    · simp [Pad.setFunc, hk]
    · simp only [Pad.setFunc, if_neg hk]
      exact ih k
  | del p key _ ih =>
    intro k
    by_cases hk : k = key
    · simp [Pad.delete, hk]
    · simp only [Pad.delete, if_neg hk]
      exact ih k
  | setErr p e _ ih => exact ih

theorem depWalk_not_invalid {env : K → Option (GoCell K V)} (hni : NoInvalid env)
    (values : K → Option V) (active : K → Bool) :
    ∀ (rem : List K) (args args' : List V),
    depWalk env values active args rem ≠ WalkRes.invalidCell args' := by
  intro rem
  induction rem with
  | nil => intro args args'; simp [depWalk]
  | cons k rest ih =>
    intro args args'
    simp only [depWalk]
    cases henv : env k with
    | none => simp
    | some cell =>
      cases cell with
      | val v => exact ih (args ++ [v]) args'
      | formula fn deps =>
        cases hv : values k with
        | some v => exact ih (args ++ [v]) args'
        | none =>
          cases hact : active k with
          | true => simp
          | false => simp
      | invalid => exact absurd henv (hni k)

theorem evalLoop_no_panic {env : K → Option (GoCell K V)} (hni : NoInvalid env) :
    ∀ (fuel : Nat) (cal : Calculator K V), cal.stack ≠ [] →
    (evalLoop env fuel cal).status ≠ EvalStatus.panicked := by
  intro fuel
  induction fuel with
  | zero => intro cal _; simp [evalLoop]
  | succ n ih =>
    intro cal hne
    cases hs : cal.stack with
    | nil => exact absurd hs hne
    | cons c rest =>
      simp only [evalLoop, hs]
      cases hw : depWalk env cal.values cal.active c.args (c.deps.drop c.args.length) with
      | failed e args' => simp
      | invalidCell args' => exact absurd hw (depWalk_not_invalid hni _ _ _ _ _)
      | pushed k fn deps args' => exact ih _ (by simp)
      | complete args' =>
        cases rest with
        | nil => simp
        | cons c2 rest2 => exact ih _ (by simp)

theorem eval_no_panic {env : K → Option (GoCell K V)} (hni : NoInvalid env)
    (cal : Calculator K V) (fuel : Nat) (key : K) (fn : List V → V) (deps : List K) :
    (cal.eval env fuel key fn deps).status ≠ EvalStatus.panicked := by
  unfold Calculator.eval
  by_cases hak : cal.active key = true
  · rw [if_pos hak]; simp
  · rw [if_neg hak]
    exact evalLoop_no_panic hni fuel _ (by simp)

theorem calcSeqLoop_no_panic {env : K → Option (GoCell K V)} (hni : NoInvalid env)
    (y : List (K × V) → K → V → Bool) (fuel : Nat) :
    ∀ (keys : List K) (cal : Calculator K V) (out : List (K × V)),
    (calcSeqLoop env y fuel keys cal out).outcome ≠ PassOut.panicked := by
  intro keys
  induction keys with
  | nil => intro cal out; simp [calcSeqLoop]
  | cons k ks ih =>
    intro cal out
    cases henv : env k with
    | none => simp only [calcSeqLoop, henv]; simp
    | some cell =>
      cases cell with
      | val v =>
        simp only [calcSeqLoop, henv]
        cases hy : y out k v with
        | false => simp
        | true => exact ih cal (out ++ [(k, v)])
      | formula fn deps =>
        cases hv : cal.values k with
        | some v =>
          simp only [calcSeqLoop, henv, hv]
          cases hy : y out k v with
          | false => simp
          | true => exact ih cal (out ++ [(k, v)])
        | none =>
          cases hev : cal.eval env fuel k fn deps with
          | mk st cal' =>
            cases st with
            | ok v =>
              simp only [calcSeqLoop, henv, hv, hev]
              cases hy : y out k v with
              | false => simp
              | true => exact ih cal' (out ++ [(k, v)])
            | failed e => simp only [calcSeqLoop, henv, hv, hev]; simp
            | panicked =>
              have := eval_no_panic hni cal fuel k fn deps
              rw [hev] at this
              exact absurd rfl this
            | fuelOut => simp only [calcSeqLoop, henv, hv, hev]; simp
      | invalid => exact absurd henv (hni k)

theorem depWalk_missing {env : K → Option (GoCell K V)} (values : K → Option V)
    (active : K → Bool) (d : K) (deps2 : List K) (hd : env d = none) :
    ∀ (deps1 : List K) (args : List V), (∀ x ∈ deps1, ∃ v, env x = some (GoCell.val v)) →
    ∃ args', depWalk env values active args (deps1 ++ d :: deps2) =
      WalkRes.failed (CalcErr.missingKey d) args' := by
  intro deps1
  induction deps1 with
  | nil =>
    intro args _
    exact ⟨args, by simp [depWalk, hd]⟩
  | cons x xs ih =>
    intro args hvals
    obtain ⟨v, hx⟩ := hvals x (List.mem_cons_self _ _)
    obtain ⟨args', hw⟩ := ih (args ++ [v]) (fun z hz => hvals z (List.mem_cons_of_mem _ hz))
    exact ⟨args', by simp only [List.cons_append, depWalk, hx]; exact hw⟩

/-- Resolution of a single requested formula key whose dependency walk fails
immediately (in the first iteration of the `eval` loop): the pass yields
nothing and the walk's error becomes the pass error. -/
theorem calcSeq_first_eval_failed (p : Pad K V) (fuel : Nat) (key : K) (fn : List V → V)
    (deps : List K) (e : CalcErr K) (args' : List V) (y : List (K × V) → K → V → Bool)
    (hk : p.env key = some (GoCell.formula fn deps))
    (hw : depWalk p.env (fun _ => none)
      (fun j => decide (j = key)) [] deps = WalkRes.failed e args')
    (hf : 1 ≤ fuel) :
    (p.calcSeq fuel [key] y).out = [] ∧ (p.calcSeq fuel [key] y).pad.err = some e := by
  obtain ⟨f, rfl⟩ : ∃ f, fuel = f + 1 := ⟨fuel - 1, by omega⟩
  simp [Pad.calcSeq, calcSeqLoop, Calculator.eval, Calculator.init, evalLoop, hk, hw]

/-! Example stores used by the witnesses. -/

/-- Consumer that never stops the iteration. -/
def yAll : List (Nat × Nat) → Nat → Nat → Bool := fun _ _ _ => true

/-- Summation formula function. -/
def sumFn : List Nat → Nat := fun a => a.foldr Nat.add 0

/-- Multiplication formula function. -/
def mulFn : List Nat → Nat := fun a => a.foldr Nat.mul 1

/-- The spec's example scenario: values 1, 2, 3 under keys 1, 2, 3, and
formulas 4 = 1 + 2, 5 = 2 + 3, 6 = 4 * 5. -/
def scenarioPad : Pad Nat Nat :=
  ((((((Pad.new.setVal 1 1).setVal 2 2).setVal 3 3).setFunc 4 sumFn [1, 2]).setFunc 5
    sumFn [2, 3]).setFunc 6 mulFn [4, 5])

/-- Two-key dependency cycle: 1 -> 2 -> 1. -/
def chainPad : Pad Nat Nat := (Pad.new.setFunc 1 sumFn [2]).setFunc 2 sumFn [1]

/-- Direct self-dependency: 3 -> 3. -/
def selfPad : Pad Nat Nat := Pad.new.setFunc 3 sumFn [3]

/-- A cycle 1 -> 2 -> 1 whose first formula also lists the absent key 3
before key 2. -/
def cycMissPad : Pad Nat Nat := (Pad.new.setFunc 1 sumFn [3, 2]).setFunc 2 sumFn [1]

/-- A store with a single value; key 99 is absent. -/
def missPad : Pad Nat Nat := Pad.new.setVal 1 5

/-- A formula listing the same dependency three times. -/
def dupPad : Pad Nat Nat := (Pad.new.setVal 1 5).setFunc 10 sumFn [1, 1, 1]

/-- A formula whose only dependency, key 8, is absent from the store. -/
def depMissPad : Pad Nat Nat := Pad.new.setFunc 10 sumFn [8]

/-! The claims. -/

/-- C1: At-most-once memoization — in any single resolution pass (any store,
requested key sequence, consumer and fuel), the function of any given
formula key is invoked at most once: the keys recorded in the invocation
trace are pairwise distinct. -/
theorem at_most_once (p : Pad K V) (fuel : Nat) (keys : List K)
    (y : List (K × V) → K → V → Bool) :
    ((p.calcSeq fuel keys y).cstate.trace.map Prod.fst).Nodup :=
  (calcSeq_inv p fuel keys y).traceNodup

/-- C2: Order preservation — whenever a resolution pass runs to completion
(the requested key sequence is exhausted, hence no error stopped it and the
consumer never declined a pair), the yielded pairs carry exactly the
requested keys in the requested order. -/
theorem order_preservation (p : Pad K V) (fuel : Nat) (keys : List K)
    (y : List (K × V) → K → V → Bool)
    (h : (p.calcSeq fuel keys y).outcome = PassOut.completed) :
    (p.calcSeq fuel keys y).out.map Prod.fst = keys := by
  have h2 := calcSeqLoop_completed_out p.env y fuel keys Calculator.init [] h
  simpa using h2

theorem order_preservation_witness :
    (scenarioPad.calcSeq 20 [4, 5, 6] yAll).outcome = PassOut.completed ∧
    (scenarioPad.calcSeq 20 [4, 5, 6] yAll).out.map Prod.fst = [4, 5, 6] :=
  ⟨by decide, order_preservation scenarioPad 20 [4, 5, 6] yAll (by decide)⟩

/-- C3 counterexample: a store where key 1's dependency list contains key 2
and key 2's contains key 1 (both formulas), yet resolving [1] sets a
`missingKey` error (for the absent dependency 3 listed before 2), not a
cycle error — so the claim as stated, quantifying over every store whose
dependency lists merely contain the two chain keys, is false. -/
theorem cycle_claim_counterexample :
    cycMissPad.env 1 = some (GoCell.formula sumFn [3, 2]) ∧
    cycMissPad.env 2 = some (GoCell.formula sumFn [1]) ∧
    (cycMissPad.calcSeq 9 [1] yAll).out = [] ∧
    (cycMissPad.calcSeq 9 [1] yAll).pad.err = some (CalcErr.missingKey 3) ∧
    ∀ k : Nat, (cycMissPad.calcSeq 9 [1] yAll).pad.err ≠ some (CalcErr.cycle k) := by
  refine ⟨rfl, rfl, by decide, by decide, ?_⟩
  intro k h
  have he : (cycMissPad.calcSeq 9 [1] yAll).pad.err = some (CalcErr.missingKey 3) := by decide
  rw [he] at h
  simp at h

/-- C3 (amended): for every store in which key `a`'s formula has dependency
list exactly `[b]` and key `b`'s has exactly `[a]` (`a ≠ b`), resolving
`[a]` yields no pairs and the pass error is the cycle error naming `a` (the
key that re-entered the active set); a formula whose dependency list is
exactly its own key fails the same way, naming that key. -/
theorem cycle_detection_amended (p q : Pad K V) (a b c : K)
    (fa fb fc : List V → V) (fuel : Nat) (y : List (K × V) → K → V → Bool)
    (hne : a ≠ b)
    (ha : p.env a = some (GoCell.formula fa [b]))
    (hb : p.env b = some (GoCell.formula fb [a]))
    (hc : q.env c = some (GoCell.formula fc [c]))
    (hfuel : 2 ≤ fuel) :
    ((p.calcSeq fuel [a] y).out = [] ∧
     (p.calcSeq fuel [a] y).pad.err = some (CalcErr.cycle a)) ∧
    ((q.calcSeq fuel [c] y).out = [] ∧
     (q.calcSeq fuel [c] y).pad.err = some (CalcErr.cycle c)) := by
  obtain ⟨f, rfl⟩ : ∃ f, fuel = f + 1 + 1 := ⟨fuel - 2, by omega⟩
  constructor
  · simp [Pad.calcSeq, calcSeqLoop, Calculator.eval, Calculator.init, evalLoop, depWalk,
      ha, hb, hne, Ne.symm hne]
  · exact calcSeq_first_eval_failed q (f + 1 + 1) c fc [c] (CalcErr.cycle c) [] y hc
      (by simp [depWalk, hc]) (by omega)

theorem cycle_detection_witness :
    ((chainPad.calcSeq 9 [1] yAll).out = [] ∧
     (chainPad.calcSeq 9 [1] yAll).pad.err = some (CalcErr.cycle 1)) ∧
    ((selfPad.calcSeq 9 [3] yAll).out = [] ∧
     (selfPad.calcSeq 9 [3] yAll).pad.err = some (CalcErr.cycle 3)) :=
  cycle_detection_amended chainPad selfPad 1 2 3 sumFn sumFn sumFn 9 yAll
    (by decide) rfl rfl rfl (by omega)

/-- C4: Missing key — (1) if a requested key `k` has no cell and the pass
reaches it (the pass over the preceding keys runs to completion), the longer
pass yields exactly the pairs of the preceding pass (nothing for `k` or any
later key) and sets the `missingKey` error naming `k`; (2) if a requested
formula's dependency `d` has no cell (all dependencies before `d` being
value cells), the pass yields nothing and sets `missingKey` naming the
dependency `d`, not the requested key. -/
theorem missing_key_reported :
    (∀ (p : Pad K V) (fuel : Nat) (y : List (K × V) → K → V → Bool) (ks1 : List K) (k : K)
       (ks2 : List K), p.env k = none →
       (p.calcSeq fuel ks1 y).outcome = PassOut.completed →
       (p.calcSeq fuel (ks1 ++ k :: ks2) y).out = (p.calcSeq fuel ks1 y).out ∧
       (p.calcSeq fuel (ks1 ++ k :: ks2) y).pad.err = some (CalcErr.missingKey k)) ∧
    (∀ (p : Pad K V) (fuel : Nat) (y : List (K × V) → K → V → Bool) (r : K)
       (fn : List V → V) (deps1 : List K) (d : K) (deps2 : List K),
       p.env r = some (GoCell.formula fn (deps1 ++ d :: deps2)) →
       (∀ x ∈ deps1, ∃ v, p.env x = some (GoCell.val v)) →
       p.env d = none → 1 ≤ fuel →
       (p.calcSeq fuel [r] y).out = [] ∧
       (p.calcSeq fuel [r] y).pad.err = some (CalcErr.missingKey d)) := by
  constructor
  · intro p fuel y ks1 k ks2 hk hcomp
    simp only [Pad.calcSeq] at hcomp ⊢
    have happ := calcSeqLoop_append p.env y fuel ks1 (k :: ks2) Calculator.init []
    rw [if_pos hcomp] at happ
    rw [happ]
    constructor
    · simp [calcSeqLoop, hk]
    · simp [calcSeqLoop, hk]
  · intro p fuel y r fn deps1 d deps2 hr hvals hd hfuel
    obtain ⟨args', hw⟩ :=
      depWalk_missing (fun _ => none) (fun j => decide (j = r)) d deps2 hd
        deps1 [] hvals
    exact calcSeq_first_eval_failed p fuel r fn (deps1 ++ d :: deps2)
      (CalcErr.missingKey d) args' y hr hw hfuel

theorem missing_key_reported_witness :
    (missPad.env 99 = none) ∧
    ((missPad.calcSeq 5 [1] yAll).outcome = PassOut.completed) ∧
    ((missPad.calcSeq 5 ([1] ++ 99 :: [1]) yAll).out = (missPad.calcSeq 5 [1] yAll).out ∧
     (missPad.calcSeq 5 ([1] ++ 99 :: [1]) yAll).pad.err = some (CalcErr.missingKey 99)) ∧
    (depMissPad.env 10 = some (GoCell.formula sumFn ([] ++ 8 :: []))) ∧
    ((depMissPad.calcSeq 5 [10] yAll).out = [] ∧
     (depMissPad.calcSeq 5 [10] yAll).pad.err = some (CalcErr.missingKey 8)) :=
  ⟨rfl, by decide,
   missing_key_reported.1 missPad 5 yAll [1] 99 [1] rfl (by decide),
   rfl,
   missing_key_reported.2 depMissPad 5 yAll 10 sumFn [] 8 [] rfl
     (by intro x hx; exact absurd hx (by simp)) rfl (by omega)⟩

/-- C5: Argument order and duplicate dependencies — every recorded formula
invocation of a key `k` whose cell lists dependencies `deps` received
exactly one argument per dependency occurrence: positionally, the `i`-th
argument is the value contributed by `deps[i]` (its stored value for a
value cell, its memoised result for a formula cell), so a key occurring `n`
times contributes its value at each of its `n` positions (equal arguments at
equal dependency positions), while the distinctness of the recorded keys
shows each such key was evaluated at most once per pass. -/
theorem duplicate_deps_positional (p : Pad K V) (fuel : Nat) (keys : List K)
    (y : List (K × V) → K → V → Bool) (k : K) (args : List V) (fn : List V → V)
    (deps : List K)
    (hmem : (k, args) ∈ (p.calcSeq fuel keys y).cstate.trace)
    (henv : p.env k = some (GoCell.formula fn deps)) :
    args.map some = deps.map (depVal (p.calcSeq fuel keys y).cstate.values p.env) ∧
    args.length = deps.length ∧
    (∀ i j : Nat, deps[i]? = deps[j]? → args[i]? = args[j]?) ∧
    ((p.calcSeq fuel keys y).cstate.trace.map Prod.fst).Nodup := by
  have hinv := calcSeq_inv p fuel keys y
  have hmap := hinv.traceArgs (k, args) hmem fn deps henv
  refine ⟨hmap, ?_, ?_, hinv.traceNodup⟩
  · have h2 := congrArg List.length hmap
    simpa using h2
  · intro i j hij
    have h1 := congrArg (fun l => l[i]?) hmap
    have h2 := congrArg (fun l => l[j]?) hmap
    simp only [List.getElem?_map] at h1 h2
    rw [hij] at h1
    rw [← h2] at h1
    cases hai : args[i]? with
    | none =>
      cases haj : args[j]? with
      | none => rfl
      | some w => rw [hai, haj] at h1; simp at h1
    | some w =>
      cases haj : args[j]? with
      | none => rw [hai, haj] at h1; simp at h1
      | some w2 =>
        rw [hai, haj] at h1
        simp at h1
        simp [h1]

theorem duplicate_deps_positional_witness :
    ((10, [5, 5, 5]) ∈ (dupPad.calcSeq 9 [10] yAll).cstate.trace) ∧
    (dupPad.env 10 = some (GoCell.formula sumFn [1, 1, 1])) ∧
    ([5, 5, 5].map some =
      [1, 1, 1].map (depVal (dupPad.calcSeq 9 [10] yAll).cstate.values dupPad.env)) ∧
    ([5, 5, 5] : List Nat).length = ([1, 1, 1] : List Nat).length :=
  ⟨by decide, rfl,
   (duplicate_deps_positional dupPad 9 [10] yAll 10 [5, 5, 5] sumFn [1, 1, 1]
     (by decide) rfl).1,
   (duplicate_deps_positional dupPad 9 [10] yAll 10 [5, 5, 5] sumFn [1, 1, 1]
     (by decide) rfl).2.1⟩

/-- C6: Pass error lifecycle — (1) the previous `Err` value is discarded at
the start of every pass (the pass result never depends on it); (2) once a
pass error is set, the sequence produces nothing more: extending the
requested key sequence beyond the failure point changes nothing about the
pass, so the single error value set by the first failure is what remains
readable afterwards. -/
theorem err_lifecycle :
    (∀ (env : K → Option (GoCell K V)) (e : Option (CalcErr K)) (fuel : Nat) (keys : List K)
       (y : List (K × V) → K → V → Bool),
       (Pad.mk env e).calcSeq fuel keys y = (Pad.mk env none).calcSeq fuel keys y) ∧
    (∀ (p : Pad K V) (fuel : Nat) (keys more : List K) (y : List (K × V) → K → V → Bool)
       (e : CalcErr K), (p.calcSeq fuel keys y).pad.err = some e →
       p.calcSeq fuel (keys ++ more) y = p.calcSeq fuel keys y) := by
  constructor
  · intro env e fuel keys y
    rfl
  · intro p fuel keys more y e herr
    simp only [Pad.calcSeq] at herr ⊢
    have hout := calcSeqLoop_err_errored p.env y fuel keys Calculator.init [] e herr
    have happ := calcSeqLoop_append p.env y fuel keys more Calculator.init []
    rw [if_neg (by rw [hout]; simp)] at happ
    exact happ

theorem err_lifecycle_witness :
    ((missPad.calcSeq 5 [99] yAll).pad.err = some (CalcErr.missingKey 99)) ∧
    (missPad.calcSeq 5 ([99] ++ [1]) yAll = missPad.calcSeq 5 [99] yAll) :=
  ⟨by decide,
   err_lifecycle.2 missPad 5 [99] [1] yAll (CalcErr.missingKey 99) (by decide)⟩

/-- C7: Idempotent re-resolution — running a second pass over the pad left
behind by a first pass (same store, formula functions pure by construction),
with the same key sequence and consumer, produces the identical pass result:
no memo, stack or active-set state survives between passes (each pass builds
its calculator afresh), and the store is the only shared state. -/
theorem idempotent_reresolution (p : Pad K V) (fuel : Nat) (keys : List K)
    (y : List (K × V) → K → V → Bool) :
    ((p.calcSeq fuel keys y).pad).calcSeq fuel keys y = p.calcSeq fuel keys y := by
  have henv := calcSeqLoop_env p.env y fuel keys Calculator.init []
  show calcSeqLoop ((p.calcSeq fuel keys y).pad.env) y fuel keys Calculator.init [] =
    p.calcSeq fuel keys y
  rw [show ((p.calcSeq fuel keys y).pad.env) = p.env from henv]
  rfl

/-- C8: Resolution does not modify the store — whatever the store, requested
keys, consumer behaviour (including early abandonment) and fuel, the pad
left behind by a pass has exactly the same key-to-cell map; of the pad's two
fields only `Err` can differ. -/
theorem store_unmodified (p : Pad K V) (fuel : Nat) (keys : List K)
    (y : List (K × V) → K → V → Bool) :
    (p.calcSeq fuel keys y).pad.env = p.env :=
  calcSeqLoop_env p.env y fuel keys Calculator.init []

/-- C9: Fixed-list adapter equivalence — `Calc(keys...)`, which wraps the
fixed key list through `slices.Values`, produces exactly the same pass
result (pairs, error, everything) as `CalcSeq` on the same keys in order. -/
theorem calc_fixed_equiv (p : Pad K V) (fuel : Nat) (keys : List K)
    (y : List (K × V) → K → V → Bool) :
    p.calcFixed fuel keys y = p.calcSeq fuel keys y := rfl

/-- C10: Cell-type safety — in a pad populated only through `SetVal`,
`SetFunc` and `Delete` from a fresh pad, every cell is a value or a formula,
so no resolution pass can reach the `invalid cell type` panic branches. -/
theorem no_invalid_cell_panic (p : Pad K V) (hb : Built p) (fuel : Nat) (keys : List K)
    (y : List (K × V) → K → V → Bool) :
    (p.calcSeq fuel keys y).outcome ≠ PassOut.panicked :=
  calcSeqLoop_no_panic (built_noInvalid hb) y fuel keys Calculator.init []

theorem no_invalid_cell_panic_witness :
    Built ((Pad.new.setVal 1 5).setFunc 2 sumFn [1] : Pad Nat Nat) ∧
    (((Pad.new.setVal 1 5).setFunc 2 sumFn [1] : Pad Nat Nat).calcSeq 9 [2] yAll).outcome ≠
      PassOut.panicked :=
  ⟨Built.setFunc _ 2 sumFn [1] (Built.setVal _ 1 5 Built.new),
   no_invalid_cell_panic _ (Built.setFunc _ 2 sumFn [1] (Built.setVal _ 1 5 Built.new))
     9 [2] yAll⟩

end Compute
